import Mathlib

/-!
Verification of the CoOpAssist ingestion pipeline and hybrid retriever.

This file gives a shallow embedding, translated from the Python source, of
the parts of the repository with algorithmic content:

* `src/src/ingestion/pipeline.py` — `_add_documents_with_retry` (overflow
  bisection), `ingest_file`, `_filter_existing`, `_ingest_sequential`,
  `_ingest_parallel` and `_process_single_file`;
* `src/src/rag/retriever.py` — the similarity transform, semantic-result
  filtering and exact/semantic result fusion of `DocumentRetriever.retrieve`,
  and the failure semantics of `_exact_search`;
* `src/src/ingestion/chunkers/metadata_enricher.py` — `_generate_doc_id`;
* `src/src/ingestion/chunkers/semantic_chunker.py` and `table_chunker.py` —
  the chunking stage;
* `src/src/ingestion/loaders/base_loader.py` — `_clean_text`; and
  `excel_loader.py` — `_format_dataframe` / `_dataframe_to_documents`.

Python machine floats are modelled as rationals, Python strings as Lean
strings, and Python dicts holding document metadata as association lists
with left-most-binding lookup.  Fallible calls are modelled with `Except`.
-/

namespace CoOpAssist

open scoped List

/-! ### Substring containment (Python `in` on strings) -/

/-- Whether `pat` occurs as a contiguous sublist of `l` (Python `pat in s`). -/
def subOccurs (pat : List Char) : List Char → Bool
  | [] => pat.isEmpty
  | c :: rest => pat.isPrefixOf (c :: rest) || subOccurs pat rest

/-- Python `"max_tokens_per_request" in error_str or "Requested" in error_str`
from `IngestionPipeline._add_documents_with_retry`. -/
def isTokenLimitError (e : String) : Bool :=
  subOccurs "max_tokens_per_request".data e.data || subOccurs "Requested".data e.data

/-! ### Overflow bisection (`IngestionPipeline._add_documents_with_retry`) -/

/-- `IngestionPipeline._add_documents_with_retry`: try to flush the whole
batch through `add` (`VectorStore.add_documents`); on a token-limit error,
bisect at the midpoint `mid = num_docs // 2` and recursively retry each half,
concatenating the returned id lists; a singleton batch that still overflows
raises `Document too large to embed`; any other error re-raises. -/
def addDocumentsWithRetry (add : List α → Except String (List String))
    (docs : List α) : Except String (List String) :=
  if _h0 : docs.isEmpty then .ok []
  else
    match add docs with
    | .ok ids => .ok ids
    | .error e =>
      if isTokenLimitError e then
        if _h1 : docs.length = 1 then
          .error ("Document too large to embed: " ++ e)
        else
          let mid := docs.length / 2
          match addDocumentsWithRetry add (docs.take mid) with
          | .error e1 => .error e1
          | .ok ids1 =>
            match addDocumentsWithRetry add (docs.drop mid) with
            | .error e2 => .error e2
            | .ok ids2 => .ok (ids1 ++ ids2)
      else .error e
termination_by docs.length
decreasing_by
  · have hpos : 0 < docs.length := by
      cases docs with
      | nil => simp at _h0
      | cons a l => simp
    simp only [List.length_take]
    omega
  · have hpos : 0 < docs.length := by
      cases docs with
      | nil => simp at _h0
      | cons a l => simp
    simp only [List.length_drop]
    omega

/-! ### Similarity transform and semantic filtering (`DocumentRetriever.retrieve`) -/

/-- `similarity = 1 / (1 + distance)` from `DocumentRetriever.retrieve`. -/
def similarityOfDistance (d : ℚ) : ℚ := 1 / (1 + d)

/-- The spec-side transform, following the spec words: `1 / (1 + d)` clamped
to the interval `[0, 1]`.  Stated for refinement comparison with
`similarityOfDistance`, which the source computes without any clamping. -/
def specClampedSimilarity (d : ℚ) : ℚ := max 0 (min 1 (1 / (1 + d)))

/-- The per-candidate filter condition `similarity >= self.similarity_threshold`
from `DocumentRetriever.retrieve`. -/
def keepSemantic (threshold d : ℚ) : Bool := threshold ≤ similarityOfDistance d

/-- One fused retrieval result (the per-result dict built in
`DocumentRetriever._exact_search` / `retrieve`).  `matchCount` is the
occurrence count set only on exact matches (`match_count`); it is `0` on
semantic results, whose dicts lack that key. -/
structure RResult where
  rid : String
  matchType : String
  matchCount : Nat
  similarity : ℚ
deriving DecidableEq, Repr

/-- A raw semantic candidate as returned by `VectorStore.query`: an id plus
the raw distance reported by the index. -/
structure SemCand where
  cid : String
  distance : ℚ
deriving DecidableEq, Repr

/-- The semantic-filter loop of `DocumentRetriever.retrieve`: keep a candidate
iff its derived similarity meets the threshold, tagging it `semantic`. -/
def filterSemantic (threshold : ℚ) (cands : List SemCand) : List RResult :=
  cands.filterMap fun c =>
    if keepSemantic threshold c.distance then
      some ⟨c.cid, "semantic", 0, similarityOfDistance c.distance⟩
    else none

/-! ### Result fusion (`DocumentRetriever.retrieve`, step 4) -/

/-- The combine/de-duplicate loop of `DocumentRetriever.retrieve`: walk the
concatenation of the exact and semantic result lists in order, appending a
result iff its id is not in `seen_ids`. -/
def dedupAppend : List RResult → List String → List RResult
  | [], _ => []
  | r :: rs, seen =>
    if r.rid ∈ seen then dedupAppend rs seen
    else r :: dedupAppend rs (r.rid :: seen)

/-- Step 4 of `DocumentRetriever.retrieve`: exact results first, then
semantic results, de-duplicated by id, truncated to `top_k`. -/
def fuseResults (exact semantic : List RResult) (k : Nat) : List RResult :=
  (dedupAppend (exact ++ semantic) []).take k

/-! ### Retrieval failure semantics (`retrieve` and `_exact_search`) -/

/-- The `try/except` of `DocumentRetriever._exact_search`: a failed scan
degrades to an empty exact-match list. -/
def exactSearchSafe (scanResult : Except String (List RResult)) : List RResult :=
  match scanResult with
  | .ok l => l
  | .error _ => []

/-- The control flow of `DocumentRetriever.retrieve` around its two store
calls: the exact search is guarded (`_exact_search` catches internally), the
semantic `VectorStore.query` call is not, so its exception propagates. -/
def retrieveModel (exactRes : Except String (List RResult))
    (semRes : Except String (List SemCand)) (threshold : ℚ) (k : Nat) :
    Except String (List RResult) :=
  match semRes with
  | .error e => .error e
  | .ok sem => .ok (fuseResults (exactSearchSafe exactRes) (filterSemantic threshold sem) k)

/-! ### Metadata enrichment (`MetadataEnricher._generate_doc_id`) -/

/-- The position metadata consulted by `_generate_doc_id`: the Python code
appends `source`, `str(page_number)` and `str(chunk_index)` to the hash input
only when the corresponding key is present in the metadata dict. -/
structure EnrichPosition where
  source : Option String
  pageNumber : Option Int
  chunkIndex : Option Int
deriving DecidableEq, Repr

/-- The `hash_input` string built by `MetadataEnricher._generate_doc_id`:
content, then source, page number and chunk index when present. -/
def hashInput (content : String) (m : EnrichPosition) : String :=
  let h1 := content
  let h2 := match m.source with | some s => h1 ++ s | none => h1
  let h3 := match m.pageNumber with | some p => h2 ++ toString p | none => h2
  match m.chunkIndex with | some ci => h3 ++ toString ci | none => h3

/-- `MetadataEnricher._generate_doc_id`.  The SHA-256/hexdigest truncation of
`hashlib` (standard library, outside this repository) is abstracted as the
digest function `sha`; claims about distinctness of ids hold modulo digest
collisions, i.e. under an injectivity hypothesis on `sha`. -/
def generateDocId (sha : String → String) (content : String) (m : EnrichPosition) : String :=
  sha (hashInput content m)

/-! ### Document and metadata model for the chunking stage -/

/-- A scalar metadata value (Python metadata dicts hold strings, ints and
bools in the chunking stage). -/
inductive MVal where
  | s (v : String)
  | i (v : Int)
  | b (v : Bool)
deriving DecidableEq, Repr

/-- A metadata dict, as an association list read through `List.lookup`
(left-most binding wins, so consing a key models `dict.update`). -/
abbrev Meta := List (String × MVal)

/-- A `Document` from `base_loader.py`: content plus metadata. -/
structure PyDoc where
  content : String
  metadata : Meta
deriving DecidableEq, Repr

/-! ### Text splitting (semantic chunker) -/

/-- Fuel-driven worker for `chunksOfSize` (structural recursion so that
concrete instances evaluate definitionally; `fuel = l.length` always
suffices since every step consumes at least one element). -/
def chunksOfSizeFuel (n : Nat) : Nat → List α → List (List α)
  | 0, l => if l.isEmpty then [] else [l]
  | fuel + 1, l =>
    if l.isEmpty then []
    else if n = 0 then [l]
    else l.take n :: chunksOfSizeFuel n fuel (l.drop n)

/-- Split a list into consecutive runs of at most `n` elements (used both as
the character-level fallback of the text splitter and for the Excel loader's
row batching via `df.iloc[start:end]`). -/
def chunksOfSize (n : Nat) (l : List α) : List (List α) :=
  chunksOfSizeFuel n l.length l

/-- Fuel-driven worker for `splitOnSep` (structural recursion; the
accumulator holds the current piece reversed, and `fuel = l.length`
suffices since every step consumes at least one character). -/
def splitOnSepFuel (sep : List Char) : Nat → List Char → List Char → List (List Char)
  | 0, l, acc => [acc.reverse ++ l]
  | _ + 1, [], acc => [acc.reverse]
  | fuel + 1, c :: rest, acc =>
    if sep.isPrefixOf (c :: rest) then
      acc.reverse :: splitOnSepFuel sep fuel ((c :: rest).drop sep.length) []
    else
      splitOnSepFuel sep fuel rest (c :: acc)

/-- Split `l` on occurrences of the non-empty separator `sep`, dropping the
separators (the behaviour of Python `s.split(sep)` used by the text
splitter); an empty separator returns the list whole. -/
def splitOnSep (sep l : List Char) : List (List Char) :=
  if sep.isEmpty then [l] else splitOnSepFuel sep l.length l []

/-- Modelled from the spec: langchain's `RecursiveCharacterTextSplitter`
(`split_text`), which is not part of this repository.  Per the spec it is a
recursive boundary search: a unit already at or below the size limit is
returned unchanged; otherwise the text is split on the coarsest separator
(paragraph break, line break, sentence end, whitespace, and finally
individual characters) whose pieces are then handled recursively so that
every emitted piece respects the configured maximum chunk size.  Overlap
re-merging of adjacent small pieces is not modelled; it never makes a piece
exceed the size limit, and no claim depends on it. -/
def splitBySeps (cs : Nat) : List String → String → List String
  | [], s =>
    if s.length ≤ cs then [s]
    else (chunksOfSize cs s.data).map String.mk
  | sep :: rest, s =>
    if s.length ≤ cs then [s]
    else (((splitOnSep sep.data s.data).map String.mk).map (splitBySeps cs rest)).flatten

/-- The separator list of `SemanticChunker` (`["\n\n", "\n", ". ", " ", ""]`);
the final empty-string separator is the character-level fallback, modelled by
the base case of `splitBySeps`. -/
def defaultSeparators : List String := ["\n\n", "\n", ". ", " "]

/-- `SemanticChunker.chunk_document`: a document whose content is already at
or below `chunk_size` is returned unchanged; otherwise the split texts become
chunks whose metadata copies the parent metadata updated with `chunk_index`,
`total_chunks` and `chunk_size`. -/
def chunkDocument (cs : Nat) (seps : List String) (doc : PyDoc) : List PyDoc :=
  if doc.content.length ≤ cs then [doc]
  else
    let texts := splitBySeps cs seps doc.content
    texts.enum.map fun p =>
      { content := p.2
        metadata := ("chunk_index", .i p.1) :: ("total_chunks", .i texts.length) ::
          ("chunk_size", .i p.2.length) :: doc.metadata }

/-- `SemanticChunker.chunk_documents`: chunk every document and concatenate. -/
def semanticChunkDocuments (cs : Nat) (seps : List String) (docs : List PyDoc) : List PyDoc :=
  (docs.map (chunkDocument cs seps)).flatten

/-- Python `metadata.get("has_tables", False)` restricted to boolean values. -/
def metaGetBool (m : Meta) (k : String) : Bool :=
  match m.lookup k with
  | some (.b v) => v
  | _ => false

/-- `TableChunker._chunk_with_tables`: a table-flagged document is kept
intact as a single chunk. -/
def chunkWithTables (doc : PyDoc) : List PyDoc := [doc]

/-- `TableChunker.chunk_documents`: with `preserve_tables` (the default),
table-flagged documents go through `_chunk_with_tables` and the rest are
passed through unchanged. -/
def tableChunkDocuments (preserveTables : Bool) (docs : List PyDoc) : List PyDoc :=
  if !preserveTables then docs
  else
    (docs.map fun d =>
      if metaGetBool d.metadata "has_tables" then chunkWithTables d else [d]).flatten

/-- `IngestionPipeline._chunk_documents`: table-aware chunking first (with
its default `preserve_tables=True`), then semantic chunking over the result. -/
def pipelineChunkDocuments (cs : Nat) (seps : List String) (docs : List PyDoc) : List PyDoc :=
  semanticChunkDocuments cs seps (tableChunkDocuments true docs)

/-! ### Text normalization (`BaseDocumentLoader._clean_text`) -/

/-- Python whitespace as recognised by `str.split()` and `str.strip()`:
space, tab, newline, carriage return, vertical tab, form feed. -/
def pyIsSpace (c : Char) : Bool :=
  c = ' ' || c = '\t' || c = '\n' || c = '\r' || c = Char.ofNat 11 || c = Char.ofNat 12

/-- Worker for Python `text.split()`: walk the characters accumulating the
current word (reversed); whitespace closes the current word, empty words are
dropped. -/
def pyWordsAux : List Char → List Char → List (List Char)
  | [], acc => if acc.isEmpty then [] else [acc.reverse]
  | c :: rest, acc =>
    if pyIsSpace c then
      if acc.isEmpty then pyWordsAux rest [] else acc.reverse :: pyWordsAux rest []
    else pyWordsAux rest (c :: acc)

/-- Python `text.split()`: maximal whitespace-free runs. -/
def pyWords (l : List Char) : List (List Char) := pyWordsAux l []

/-- Python `" ".join(words)`. -/
def joinWords : List (List Char) → List Char
  | [] => []
  | [w] => w
  | w :: ws => w ++ ' ' :: joinWords ws

/-- Python `text.replace("\x00", "")`. -/
def removeNullChars (l : List Char) : List Char := l.filter fun c => c ≠ Char.ofNat 0

/-- Python `text.strip()`: drop leading and trailing whitespace. -/
def pyStrip (l : List Char) : List Char :=
  ((l.dropWhile pyIsSpace).reverse.dropWhile pyIsSpace).reverse

/-- `BaseDocumentLoader._clean_text` on character lists, in source order:
collapse whitespace runs (`" ".join(text.split())`), then remove null bytes,
then strip the ends. -/
def cleanChars (l : List Char) : List Char :=
  pyStrip (removeNullChars (joinWords (pyWords l)))

/-- `BaseDocumentLoader._clean_text` (the `if not text: return ""` guard is
subsumed: cleaning the empty string yields the empty string). -/
def cleanText (s : String) : String := String.mk (cleanChars s.data)

/-- `PDFLoader._extract_with_pdfplumber` page content: extracted text, plus
`"\n\n"`-joined table text when tables were found, passed through
`_clean_text`. -/
def pdfPageContent (text tableText : String) : String :=
  cleanText (if tableText = "" then text else text ++ "\n\n" ++ tableText)

/-- Detects a run of two or more consecutive whitespace characters — the
normalization property the spec asserts for stored content. -/
def hasDoubleWS : List Char → Bool
  | c1 :: c2 :: rest => (pyIsSpace c1 && pyIsSpace c2) || hasDoubleWS (c2 :: rest)
  | _ => false

/-! ### Excel/CSV loader content (`ExcelLoader`) -/

/-- `ExcelLoader._format_dataframe`: sheet header, blank line, pipe-joined
column list, blank line, then one `Row N: col: value | ...` line per row,
all joined with `"\n"`.  Rows carry their dataframe index label (`idx` of
`iterrows`), cells are pre-rendered strings (`NaN` already replaced by `""`). -/
def formatDataframe (sheetName : String) (cols : List String)
    (rows : List (Nat × List String)) : String :=
  String.intercalate "\n"
    (["Sheet: " ++ sheetName, "", "Columns: " ++ String.intercalate " | " cols, ""] ++
      rows.map fun r =>
        "Row " ++ toString (r.1 + 2) ++ ": " ++
          String.intercalate " | " ((cols.zip r.2).map fun p => p.1 ++ ": " ++ p.2))

/-- `ExcelLoader._generate_description` for a frame without numeric columns
(the numeric-column statistics use floating point and are not modelled; no
claim depends on them).  Parts are joined with `" "`. -/
def generateDescription (sheetName : String) (cols : List String) (nRows : Nat) : String :=
  let q := String.mk [Char.ofNat 39]
  String.intercalate " "
    ["This is data from the sheet " ++ q ++ sheetName ++ q ++ ".",
      "It contains " ++ toString nRows ++ " rows and " ++ toString cols.length ++ " columns.",
      "The columns are: " ++ String.intercalate ", " cols ++ "."]

/-- `ExcelLoader._dataframe_to_documents`: batch the rows `max_rows_per_chunk`
at a time, format each batch, optionally prepend the natural-language
description separated by `"\n\n"`, and extend the base metadata with the row
range, counts, column list and chunk indices. -/
def dataframeToDocuments (genDesc : Bool) (maxRows : Nat) (sheetName : String)
    (cols : List String) (rows : List (List String)) (baseMeta : Meta) : List PyDoc :=
  let numChunks := (rows.length + maxRows - 1) / maxRows
  (chunksOfSize maxRows rows).enum.map fun p =>
    let startRow := p.1 * maxRows
    let endRow := min (startRow + maxRows) rows.length
    let chunkRows := p.2
    let content := formatDataframe sheetName cols
      (chunkRows.enum.map fun q => (startRow + q.1, q.2))
    let full :=
      if genDesc then generateDescription sheetName cols chunkRows.length ++ "\n\n" ++ content
      else content
    { content := full
      metadata :=
        ("row_start", .i (startRow + 2)) :: ("row_end", .i (endRow + 2)) ::
        ("row_count", .i chunkRows.length) :: ("column_count", .i cols.length) ::
        ("columns", .s (String.intercalate ", " cols)) ::
        ("chunk_index", .i p.1) :: ("total_chunks", .i numChunks) :: baseMeta }

/-! ### Ingestion pipeline state (`ingest_file`, `_ingest_sequential`, `_ingest_parallel`) -/

/-- Per-file outcome of `IngestionPipeline.ingest_file` (the `status` field of
its result dict). -/
inductive FileResult where
  | success (chunksAdded : Nat)
  | skipped
  | failed
deriving DecidableEq, Repr

/-- The vector store's id set, as the list of stored `doc_id`s;
`VectorStore.document_exists` is membership. -/
abbrev StoreIds := List String

/-- `IngestionPipeline._filter_existing`: keep a chunk iff its `doc_id` is
truthy (non-empty) and not already stored. -/
def filterExisting (store : StoreIds) (docIds : List String) : List String :=
  docIds.filter fun d => !(d = "") && !(store.contains d)

/-- `IngestionPipeline.ingest_file` for a file whose enriched chunks carry
the given `doc_id`s (an empty list models a file from which no content
loaded, the `failed` path).  Storing is modelled as the always-successful
append of the ids (`_add_documents_with_retry` failures take the `failed`
path and are orthogonal to the skip-existing claims). -/
def ingestFile (skipExisting : Bool) (store : StoreIds) (fileChunks : List String) :
    FileResult × StoreIds :=
  if fileChunks.isEmpty then (.failed, store)
  else if skipExisting then
    let docs := filterExisting store fileChunks
    if docs.isEmpty then (.skipped, store)
    else (.success docs.length, store ++ docs)
  else (.success fileChunks.length, store ++ fileChunks)

/-- The loop of `IngestionPipeline._ingest_sequential`: process the files in
order through `ingest_file`, threading the store and collecting each file's
outcome (an exception from `ingest_file` is recorded as `failed`, already
covered by the `failed` constructor). -/
def runFiles (skipExisting : Bool) : StoreIds → List (List String) →
    List FileResult × StoreIds
  | store, [] => ([], store)
  | store, f :: fs =>
    let r := ingestFile skipExisting store f
    let rest := runFiles skipExisting r.2 fs
    (r.1 :: rest.1, rest.2)

/-- The statistics dict accumulated by `_ingest_sequential` /
`_ingest_parallel`. -/
structure IngestStats where
  totalFiles : Nat
  successful : Nat
  failed : Nat
  skipped : Nat
  totalChunks : Nat
deriving DecidableEq, Repr

/-- One loop-body update of the statistics in `_ingest_sequential`: exactly
one of the three counters is incremented per file result, and `total_chunks`
grows by `chunks_added` on success. -/
def updateStats (s : IngestStats) (r : FileResult) : IngestStats :=
  match r with
  | .success n =>
    { s with successful := s.successful + 1, totalChunks := s.totalChunks + n }
  | .skipped => { s with skipped := s.skipped + 1 }
  | .failed => { s with failed := s.failed + 1 }

/-- The statistics dict as initialised at the top of `_ingest_sequential`:
`total_files` is the number of enumerated files, all counters zero. -/
def initStats (n : Nat) : IngestStats := ⟨n, 0, 0, 0, 0⟩

/-- `IngestionPipeline._ingest_sequential`: run every file, never aborting on
a per-file failure, and fold the outcomes into the statistics. -/
def ingestSequential (skipExisting : Bool) (store : StoreIds)
    (files : List (List String)) : IngestStats × StoreIds :=
  let r := runFiles skipExisting store files
  (r.1.foldl updateStats (initStats files.length), r.2)

/-- `IngestionPipeline._ingest_parallel` with `_process_single_file`: each
file is loaded/chunked/enriched WITHOUT consulting the store (the
`skip_existing` argument of `_process_single_file` is accepted but unused),
counted `successful` whenever content loaded, and its chunks are flushed
batchwise (`batch_size = 1`, so immediately) into the store.  Pool completion
order is nondeterministic in Python; the counter updates commute, so
submission order is used.  ChromaDB's behaviour on duplicate ids is outside
this repository; flushing is modelled as an append, and no claim below
depends on it. -/
def ingestParallel (store : StoreIds) (files : List (List String)) :
    IngestStats × StoreIds :=
  files.foldl
    (fun acc f =>
      if f.isEmpty then ({ acc.1 with failed := acc.1.failed + 1 }, acc.2)
      else
        ({ acc.1 with
            successful := acc.1.successful + 1
            totalChunks := acc.1.totalChunks + f.length },
          acc.2 ++ f))
    (initStats files.length, store)

/-! ### Outcome predicates used in the statistics invariants -/

/-- Whether a file outcome is `success`. -/
def isSuccessR : FileResult → Bool
  | .success _ => true
  | _ => false

/-- Whether a file outcome is `failed`. -/
def isFailedR : FileResult → Bool
  | .failed => true
  | _ => false

/-- Whether a file outcome is `skipped`. -/
def isSkippedR : FileResult → Bool
  | .skipped => true
  | _ => false

/-- The `chunks_added` count of a successful outcome. -/
def chunksAddedOf : FileResult → Option Nat
  | .success n => some n
  | _ => none

/-! ### Concrete fixtures used by witness and counterexample theorems -/

/-- A flush function realising the overflow scenario: singleton batches
succeed (returning the document's id), any other batch raises the
token-limit error. -/
def addStub : List Nat → Except String (List String) := fun b =>
  match b with
  | [d] => .ok [toString d]
  | _ => .error "max_tokens_per_request: Requested 500000 tokens"

/-- Exact results fixture: two exact matches ranked by occurrence count. -/
def exFixture : List RResult := [⟨"a", "exact", 3, 1⟩, ⟨"b", "exact", 1, 1⟩]

/-- Semantic results fixture: one id colliding with an exact match. -/
def semFixture : List RResult := [⟨"a", "semantic", 0, 1⟩, ⟨"c", "semantic", 0, 1⟩]

/-- A position metadata fixture. -/
def posFixture : EnrichPosition := ⟨some "manuals/spec.pdf", some 1, some 0⟩

/-- The identity digest (trivially injective), instantiating the abstract
`sha` parameter in witnesses. -/
def idDigest : String → String := fun s => s

/-- A table-flagged document longer than a chunk size of 5. -/
def tableDocFixture : PyDoc := ⟨"aaaaaaaaaaaa", [("has_tables", MVal.b true)]⟩

/-- A document already below the default chunk size. -/
def smallDocFixture : PyDoc := ⟨"hi", [("source", MVal.s "f")]⟩

/-- A prose document longer than a chunk size of 5. -/
def bigDocFixture : PyDoc := ⟨"aaaaaaaaaaaa", [("source", MVal.s "f")]⟩

/-- The documents the Excel loader emits for a one-column, one-row CSV
dataframe with default options. -/
def excelUnitDocs : List PyDoc := dataframeToDocuments true 50 "data" ["A"] [["1"]] []

/-! ## Supporting lemmas -/

lemma runFiles_length (skipExisting : Bool) :
    ∀ (files : List (List String)) (store : StoreIds),
      (runFiles skipExisting store files).1.length = files.length := by
  intro files
  induction files with
  | nil => intro store; simp [runFiles]
  | cons f fs ih => intro store; simp [runFiles, ih]

lemma foldl_updateStats (rs : List FileResult) (init : IngestStats) :
    rs.foldl updateStats init =
      ⟨init.totalFiles,
        init.successful + rs.countP isSuccessR,
        init.failed + rs.countP isFailedR,
        init.skipped + rs.countP isSkippedR,
        init.totalChunks + (rs.filterMap chunksAddedOf).sum⟩ := by
  induction rs generalizing init with
  | nil => cases init; simp
  | cons r rs ih =>
    cases r <;>
      simp [updateStats, ih, List.countP_cons, List.filterMap_cons, isSuccessR,
        isFailedR, isSkippedR, chunksAddedOf, IngestStats.mk.injEq] <;>
      omega

lemma countP_outcomes (rs : List FileResult) :
    rs.countP isSuccessR + rs.countP isFailedR + rs.countP isSkippedR = rs.length := by
  induction rs with
  | nil => simp
  | cons r rs ih =>
    cases r <;> simp [List.countP_cons, isSuccessR, isFailedR, isSkippedR] <;> omega

lemma ingestSequential_stats (sk : Bool) (store : StoreIds) (files : List (List String)) :
    (ingestSequential sk store files).1 =
      ⟨files.length,
        (runFiles sk store files).1.countP isSuccessR,
        (runFiles sk store files).1.countP isFailedR,
        (runFiles sk store files).1.countP isSkippedR,
        ((runFiles sk store files).1.filterMap chunksAddedOf).sum⟩ := by
  unfold ingestSequential
  dsimp only
  rw [foldl_updateStats]
  simp [initStats]

lemma dedupAppend_sublist (l : List RResult) (seen : List String) :
    dedupAppend l seen <+ l := by
  induction l generalizing seen with
  | nil => simp [dedupAppend]
  | cons r rs ih =>
    simp only [dedupAppend]
    split
    · exact (ih seen).trans (List.sublist_cons_self r rs)
    · exact (ih (r.rid :: seen)).cons₂ r

lemma dedupAppend_not_seen (l : List RResult) (seen : List String) :
    ∀ r ∈ dedupAppend l seen, r.rid ∉ seen := by
  induction l generalizing seen with
  | nil => simp [dedupAppend]
  | cons r rs ih =>
    simp only [dedupAppend]
    split
    · exact ih seen
    · intro r' hr'
      rcases List.mem_cons.mp hr' with h | h
      · subst h; assumption
      · have := ih (r.rid :: seen) r' h
        exact fun hmem => this (List.mem_cons_of_mem _ hmem)

lemma dedupAppend_nodup (l : List RResult) (seen : List String) :
    ((dedupAppend l seen).map (fun r => r.rid)).Nodup := by
  induction l generalizing seen with
  | nil => simp [dedupAppend]
  | cons r rs ih =>
    simp only [dedupAppend]
    split
    · exact ih seen
    · refine List.nodup_cons.mpr ⟨?_, ih (r.rid :: seen)⟩
      intro hmem
      rcases List.mem_map.mp hmem with ⟨r', hr', hid⟩
      exact dedupAppend_not_seen rs (r.rid :: seen) r' hr' (hid ▸ List.mem_cons_self _ _)

/-! ## Claim theorems -/

/-- Claim C3: the fused result list decomposes as a block of exact matches
(a subsequence of the exact list, hence in its occurrence-count ranking and
still sorted by descending `match_count`) followed by a block of semantic
matches, with pairwise-distinct record ids and length at most `k`; no
semantic result is ever placed before an exact match. -/
theorem fusion_exact_precedence (exact semantic : List RResult) (k : Nat)
    (hex : ∀ r ∈ exact, r.matchType = "exact")
    (hsem : ∀ r ∈ semantic, r.matchType = "semantic")
    (hsort : exact.Pairwise fun a b => b.matchCount ≤ a.matchCount) :
    ∃ fe fs,
      fuseResults exact semantic k = fe ++ fs ∧
      fe <+ exact ∧
      fs <+ semantic ∧
      (∀ r ∈ fe, r.matchType = "exact") ∧
      (∀ r ∈ fs, r.matchType = "semantic") ∧
      (fe.Pairwise fun a b => b.matchCount ≤ a.matchCount) ∧
      (fuseResults exact semantic k).length ≤ k ∧
      ((fuseResults exact semantic k).map (fun r => r.rid)).Nodup := by
  have hsub : fuseResults exact semantic k <+ exact ++ semantic :=
    (List.take_sublist k _).trans (dedupAppend_sublist (exact ++ semantic) [])
  rcases List.sublist_append_iff.mp hsub with ⟨fe, fs, heq, hfe, hfs⟩
  refine ⟨fe, fs, heq, hfe, hfs, fun r hr => hex r (hfe.subset hr),
    fun r hr => hsem r (hfs.subset hr), List.Pairwise.sublist hfe hsort,
    List.length_take_le k _, ?_⟩
  have hmapsub : (fuseResults exact semantic k).map (fun r => r.rid) <+
      (dedupAppend (exact ++ semantic) []).map (fun r => r.rid) :=
    (List.take_sublist k _).map _
  exact (dedupAppend_nodup (exact ++ semantic) []).sublist hmapsub

/-- Witness for C3 on concrete exact and semantic fixtures (with an id
collision between the two lists). -/
theorem fusion_exact_precedence_witness :
    ((∀ r ∈ exFixture, r.matchType = "exact") ∧
      (∀ r ∈ semFixture, r.matchType = "semantic") ∧
      exFixture.Pairwise fun a b => b.matchCount ≤ a.matchCount) ∧
    ∃ fe fs,
      fuseResults exFixture semFixture 3 = fe ++ fs ∧
      fe <+ exFixture ∧
      fs <+ semFixture ∧
      (∀ r ∈ fe, r.matchType = "exact") ∧
      (∀ r ∈ fs, r.matchType = "semantic") ∧
      (fe.Pairwise fun a b => b.matchCount ≤ a.matchCount) ∧
      (fuseResults exFixture semFixture 3).length ≤ 3 ∧
      ((fuseResults exFixture semFixture 3).map (fun r => r.rid)).Nodup :=
  ⟨⟨by decide, by decide, by decide⟩,
    fusion_exact_precedence exFixture semFixture 3 (by decide) (by decide) (by decide)⟩

/-- Claim C2: for a candidate whose raw distance `d` is nonnegative (as the
index reports), the derived similarity equals `1 / (1 + d)` clamped to
`[0, 1]` (the code's unclamped value already lies in that interval), with
`d = 0 ↦ 1` and `d = 1 ↦ 1/2`, and a candidate passes the semantic filter
iff its derived similarity is at least the threshold. -/
theorem similarity_transform_spec (d : ℚ) (hd : 0 ≤ d) :
    similarityOfDistance d = specClampedSimilarity d ∧
    similarityOfDistance 0 = 1 ∧
    similarityOfDistance 1 = 1 / 2 ∧
    ∀ t : ℚ, keepSemantic t d = true ↔ t ≤ similarityOfDistance d := by
  refine ⟨?_, by norm_num [similarityOfDistance], by norm_num [similarityOfDistance], ?_⟩
  · unfold similarityOfDistance specClampedSimilarity
    have h1 : (0 : ℚ) < 1 + d := by linarith
    have h2 : 1 / (1 + d) ≤ 1 := by
      rw [div_le_one h1]; linarith
    have h3 : (0 : ℚ) ≤ 1 / (1 + d) := by positivity
    rw [min_eq_right h2, max_eq_right h3]
  · intro t
    simp [keepSemantic]

/-- Witness for C2 at the concrete distance `d = 1`. -/
theorem similarity_transform_spec_witness :
    (0 : ℚ) ≤ 1 ∧
      (similarityOfDistance 1 = specClampedSimilarity 1 ∧
        similarityOfDistance 0 = 1 ∧
        similarityOfDistance 1 = 1 / 2 ∧
        ∀ t : ℚ, keepSemantic t 1 = true ↔ t ≤ similarityOfDistance 1) :=
  ⟨by norm_num, similarity_transform_spec 1 (by norm_num)⟩

/-- Claim C6: a failing semantic query propagates its error out of
`retrieve` (no silent empty result), while a failing exact scan degrades to
an empty exact-match set and retrieval still returns the fused semantic
results. -/
theorem retrieve_failure_semantics :
    (∀ (exactRes : Except String (List RResult)) (t : ℚ) (k : Nat) (e : String),
        retrieveModel exactRes (.error e) t k = .error e) ∧
    (∀ (e : String) (sem : List SemCand) (t : ℚ) (k : Nat),
        retrieveModel (.error e) (.ok sem) t k =
          .ok (fuseResults [] (filterSemantic t sem) k)) :=
  ⟨fun _ _ _ _ => rfl, fun _ _ _ _ => rfl⟩

/-- Claim C10: sequential directory ingestion increments exactly one of
`successful` / `failed` / `skipped` per file (their counts partition the
outcome list), processes every file (never aborting early), and
`total_chunks` is the sum of `chunks_added` over the successful files. -/
theorem sequential_stats_invariant (skipExisting : Bool) (store : StoreIds)
    (files : List (List String)) :
    (runFiles skipExisting store files).1.length = files.length ∧
    (ingestSequential skipExisting store files).1.totalFiles = files.length ∧
    (ingestSequential skipExisting store files).1.successful =
      (runFiles skipExisting store files).1.countP isSuccessR ∧
    (ingestSequential skipExisting store files).1.failed =
      (runFiles skipExisting store files).1.countP isFailedR ∧
    (ingestSequential skipExisting store files).1.skipped =
      (runFiles skipExisting store files).1.countP isSkippedR ∧
    (ingestSequential skipExisting store files).1.successful +
        (ingestSequential skipExisting store files).1.failed +
        (ingestSequential skipExisting store files).1.skipped = files.length ∧
    (ingestSequential skipExisting store files).1.totalChunks =
      ((runFiles skipExisting store files).1.filterMap chunksAddedOf).sum := by
  have hlen := runFiles_length skipExisting files store
  have hpart := countP_outcomes ((runFiles skipExisting store files).1)
  rw [ingestSequential_stats]
  exact ⟨hlen, rfl, rfl, rfl, rfl, by dsimp only; omega, rfl⟩

/-- Claim C1: if flushing any batch of more than one document raises the
overflow error and flushing any single document succeeds (returning that
document's id), then `_add_documents_with_retry` on a non-empty batch of `N`
documents terminates (it is a total function of this model), never raises,
and returns exactly the `N` ids in order. -/
theorem overflow_bisection_stores_all {α : Type} (add : List α → Except String (List String))
    (docId : α → String) (err : String)
    (herr : isTokenLimitError err = true)
    (hbig : ∀ b : List α, 2 ≤ b.length → add b = .error err)
    (hone : ∀ d : α, add [d] = .ok [docId d]) :
    ∀ docs : List α, docs ≠ [] →
      addDocumentsWithRetry add docs = .ok (docs.map docId) ∧
      (docs.map docId).length = docs.length := by
  have main : ∀ (n : Nat) (docs : List α), docs.length = n → docs ≠ [] →
      addDocumentsWithRetry add docs = .ok (docs.map docId) := by
    intro n
    induction n using Nat.strong_induction_on with
    | _ n ih =>
      intro docs hlen hne
      match docs, hlen with
      | [], hlen => exact absurd rfl hne
      | [d], hlen =>
        rw [addDocumentsWithRetry]
        simp [hone d]
      | d1 :: d2 :: rest, hlen =>
        have h2 : 2 ≤ (d1 :: d2 :: rest).length := by
          simp only [List.length_cons]; omega
        have e1 : addDocumentsWithRetry add
            (List.take ((d1 :: d2 :: rest).length / 2) (d1 :: d2 :: rest)) =
            .ok (List.map docId
              (List.take ((d1 :: d2 :: rest).length / 2) (d1 :: d2 :: rest))) := by
          apply ih (List.take ((d1 :: d2 :: rest).length / 2) (d1 :: d2 :: rest)).length
            ?_ _ rfl ?_
          · rw [List.length_take]
            simp only [List.length_cons] at hlen ⊢
            omega
          · apply List.ne_nil_of_length_pos
            rw [List.length_take]
            simp only [List.length_cons]
            omega
        have e2 : addDocumentsWithRetry add
            (List.drop ((d1 :: d2 :: rest).length / 2) (d1 :: d2 :: rest)) =
            .ok (List.map docId
              (List.drop ((d1 :: d2 :: rest).length / 2) (d1 :: d2 :: rest))) := by
          apply ih (List.drop ((d1 :: d2 :: rest).length / 2) (d1 :: d2 :: rest)).length
            ?_ _ rfl ?_
          · rw [List.length_drop]
            simp only [List.length_cons] at hlen ⊢
            omega
          · apply List.ne_nil_of_length_pos
            rw [List.length_drop]
            simp only [List.length_cons]
            omega
        rw [addDocumentsWithRetry]
        rw [dif_neg (by simp : ¬((d1 :: d2 :: rest).isEmpty = true))]
        rw [hbig _ h2]
        dsimp only
        rw [if_pos herr]
        rw [dif_neg (by simp only [List.length_cons]; omega : ¬(d1 :: d2 :: rest).length = 1)]
        rw [e1]
        dsimp only
        rw [e2]
        dsimp only
        rw [← List.map_append, List.take_append_drop]
  intro docs hne
  exact ⟨main docs.length docs rfl hne, by simp⟩

/-- Witness for C1 on the concrete flush function `addStub` and the batch
`[1, 2, 3]`. -/
theorem overflow_bisection_stores_all_witness :
    (isTokenLimitError "max_tokens_per_request: Requested 500000 tokens" = true ∧
      ([1, 2, 3] : List Nat) ≠ []) ∧
    addDocumentsWithRetry addStub [1, 2, 3] = .ok (([1, 2, 3] : List Nat).map toString) ∧
    (([1, 2, 3] : List Nat).map toString).length = ([1, 2, 3] : List Nat).length :=
  ⟨⟨by decide, by decide⟩,
    overflow_bisection_stores_all addStub toString
      "max_tokens_per_request: Requested 500000 tokens"
      (by decide)
      (fun b hb => by
        match b, hb with
        | x :: y :: t, _ => rfl)
      (fun d => rfl)
      [1, 2, 3] (by decide)⟩

lemma string_append_cancel_right {a b t : String} (h : a ++ t = b ++ t) : a = b := by
  have hd : a.data ++ t.data = b.data ++ t.data := by
    have := congrArg String.data h
    simpa [String.data_append] using this
  have : a.data = b.data := List.append_cancel_right hd
  cases a
  cases b
  exact congrArg String.mk this

/-- Claim C4: `_generate_doc_id` is deterministic (same content and same
source / page / chunk position give the same id) and content-sensitive (with
the position metadata held fixed, different content gives a different id,
modulo collisions of the abstract digest, which is assumed injective as the
spec does). -/
theorem doc_id_deterministic_and_content_sensitive
    (sha : String → String) (hinj : Function.Injective sha)
    (c1 c2 : String) (m : EnrichPosition) :
    generateDocId sha c1 m = generateDocId sha c1 m ∧
    (c1 ≠ c2 → generateDocId sha c1 m ≠ generateDocId sha c2 m) := by
  refine ⟨rfl, fun hne hEq => hne ?_⟩
  have h1 : hashInput c1 m = hashInput c2 m := hinj hEq
  rcases m with ⟨so, po, co⟩
  cases so <;> cases po <;> cases co <;>
    simp only [hashInput] at h1 <;>
    first
      | exact h1
      | exact string_append_cancel_right h1
      | exact string_append_cancel_right (string_append_cancel_right h1)
      | exact string_append_cancel_right
          (string_append_cancel_right (string_append_cancel_right h1))

/-- Witness for C4 with the identity digest and contents differing in one
character. -/
theorem doc_id_deterministic_and_content_sensitive_witness :
    ("a" : String) ≠ "b" ∧
    generateDocId idDigest "a" posFixture ≠ generateDocId idDigest "b" posFixture :=
  ⟨by decide,
    (doc_id_deterministic_and_content_sensitive idDigest (fun _ _ h => h)
        "a" "b" posFixture).2 (by decide)⟩

lemma contains_iff_mem_str (l : List String) (d : String) :
    l.contains d = true ↔ d ∈ l := by
  simp [List.contains_eq_any_beq, List.any_eq_true, beq_iff_eq]

lemma ingestFile_store_superset (sk : Bool) (store : StoreIds) (f : List String) :
    ∀ d ∈ store, d ∈ (ingestFile sk store f).2 := by
  intro d hd
  unfold ingestFile
  split
  · exact hd
  · split
    · dsimp only
      split
      · exact hd
      · exact List.mem_append_left _ hd
    · exact List.mem_append_left _ hd

lemma ingestFile_covers (store : StoreIds) (f : List String) :
    ∀ d ∈ f, d ≠ "" → d ∈ (ingestFile true store f).2 := by
  intro d hd hne
  unfold ingestFile
  split
  · rename_i hemp
    rw [List.isEmpty_iff] at hemp
    subst hemp
    simp at hd
  · rw [if_pos rfl]
    dsimp only
    split
    · rename_i hflt
      rw [List.isEmpty_iff] at hflt
      have hall := List.filter_eq_nil_iff.mp hflt d hd
      simp only [Bool.and_eq_true, Bool.not_eq_true', decide_eq_false_iff_not,
        not_and] at hall
      have hcont : store.contains d = true := by
        by_contra hc
        exact hall (by simpa using hne) (by simpa using hc)
      exact (contains_iff_mem_str store d).mp hcont
    · by_cases hmem : d ∈ store
      · exact List.mem_append_left _ hmem
      · refine List.mem_append_right _ ?_
        refine List.mem_filter.mpr ⟨hd, ?_⟩
        simp only [Bool.and_eq_true, Bool.not_eq_true', decide_eq_false_iff_not]
        refine ⟨by simpa using hne, ?_⟩
        simpa using fun hc => hmem ((contains_iff_mem_str store d).mp hc)

lemma runFiles_store_superset (sk : Bool) :
    ∀ (files : List (List String)) (store : StoreIds),
      ∀ d ∈ store, d ∈ (runFiles sk store files).2 := by
  intro files
  induction files with
  | nil => intro store d hd; exact hd
  | cons f fs ih =>
    intro store d hd
    exact ih _ _ (ingestFile_store_superset sk store f d hd)

lemma runFiles_covers :
    ∀ (files : List (List String)) (store : StoreIds),
      ∀ f ∈ files, ∀ d ∈ f, d ≠ "" → d ∈ (runFiles true store files).2 := by
  intro files
  induction files with
  | nil => intro store f hf; simp at hf
  | cons g gs ih =>
    intro store f hf d hd hne
    rcases List.mem_cons.mp hf with h | h
    · subst h
      exact runFiles_store_superset true gs _ d (ingestFile_covers store f d hd hne)
    · exact ih _ f h d hd hne

lemma ingestFile_skips_when_covered (store : StoreIds) (f : List String)
    (h : ∀ d ∈ f, d ≠ "" → d ∈ store) :
    (ingestFile true store f).2 = store ∧ isSuccessR (ingestFile true store f).1 = false := by
  unfold ingestFile
  split
  · exact ⟨rfl, rfl⟩
  · rw [if_pos rfl]
    dsimp only
    have hflt : filterExisting store f = [] := by
      refine List.filter_eq_nil_iff.mpr fun d hd => ?_
      simp only [Bool.and_eq_true, Bool.not_eq_true', decide_eq_false_iff_not, not_and]
      intro hne hc
      simp at hc
      exact hc (h d hd (by simpa using hne))
    rw [if_pos (by rw [List.isEmpty_iff]; exact hflt)]
    exact ⟨rfl, rfl⟩

lemma runFiles_no_success (files : List (List String)) :
    ∀ store : StoreIds, (∀ f ∈ files, ∀ d ∈ f, d ≠ "" → d ∈ store) →
      (runFiles true store files).2 = store ∧
      ∀ r ∈ (runFiles true store files).1, isSuccessR r = false := by
  induction files with
  | nil => intro store _; exact ⟨rfl, by simp [runFiles]⟩
  | cons f fs ih =>
    intro store h
    have hf := ingestFile_skips_when_covered store f (h f (List.mem_cons_self f fs))
    have ihs := ih (ingestFile true store f).2
      (by rw [hf.1]; exact fun g hg => h g (List.mem_cons_of_mem f hg))
    constructor
    · show (runFiles true (ingestFile true store f).2 fs).2 = store
      rw [ihs.1, hf.1]
    · intro r hr
      rcases List.mem_cons.mp hr with h' | h'
      · rw [h']; exact hf.2
      · exact ihs.2 r h'

/-- Claim C5 (amended): in the sequential path, `ingest_file` with
skip-existing drops every chunk whose id is already stored (what it stores
was not previously present), reports `skipped` — not `success` — when the
drop empties the chunk list, and a second sequential run over unchanged
files yields `successful = 0`, only skipped or failed files, and an
unchanged store.  (The parallel path, the default of `ingest_directory`,
does not have this property; see the counterexample.) -/
theorem skip_existing_sequential_idempotent (store0 : StoreIds) (files : List (List String)) :
    (∀ (store : StoreIds) (chunks : List String), chunks ≠ [] →
      (filterExisting store chunks = [] → ingestFile true store chunks = (.skipped, store)) ∧
      (filterExisting store chunks ≠ [] →
        ingestFile true store chunks =
          (.success (filterExisting store chunks).length,
            store ++ filterExisting store chunks)) ∧
      (∀ d ∈ filterExisting store chunks, d ∉ store)) ∧
    (ingestSequential true ((ingestSequential true store0 files).2) files).1.successful = 0 ∧
    (ingestSequential true ((ingestSequential true store0 files).2) files).2 =
      (ingestSequential true store0 files).2 ∧
    (ingestSequential true ((ingestSequential true store0 files).2) files).1.skipped +
        (ingestSequential true ((ingestSequential true store0 files).2) files).1.failed =
      files.length := by
  constructor
  · intro store chunks hne
    refine ⟨fun hflt => ?_, fun hflt => ?_, fun d hd => ?_⟩
    · unfold ingestFile
      rw [if_neg (by simpa [List.isEmpty_iff] using hne)]
      rw [if_pos rfl]
      dsimp only
      rw [if_pos (by rw [List.isEmpty_iff]; exact hflt)]
    · unfold ingestFile
      rw [if_neg (by simpa [List.isEmpty_iff] using hne)]
      rw [if_pos rfl]
      dsimp only
      rw [if_neg (by rw [List.isEmpty_iff]; exact hflt)]
    · have hmf := (List.mem_filter.mp hd).2
      simp at hmf
      exact hmf.2
  · have hst1 : (ingestSequential true store0 files).2 = (runFiles true store0 files).2 := rfl
    have hcov : ∀ f ∈ files, ∀ d ∈ f, d ≠ "" →
        d ∈ (ingestSequential true store0 files).2 := by
      rw [hst1]; exact runFiles_covers files store0
    have hrun := runFiles_no_success files ((ingestSequential true store0 files).2) hcov
    have hcount : ((runFiles true ((ingestSequential true store0 files).2) files).1.countP
        isSuccessR) = 0 :=
      List.countP_eq_zero.mpr fun r hr => by simp [hrun.2 r hr]
    have hpart := countP_outcomes ((runFiles true ((ingestSequential true store0 files).2) files).1)
    have hlen := runFiles_length true files ((ingestSequential true store0 files).2)
    refine ⟨?_, ?_, ?_⟩
    · rw [ingestSequential_stats]
      exact hcount
    · show (runFiles true ((ingestSequential true store0 files).2) files).2 =
        (ingestSequential true store0 files).2
      exact hrun.1
    · rw [ingestSequential_stats]
      dsimp only
      omega

/-- Counterexample to C5 as stated about `ingest_directory`: its default path
(`parallel=True` with the default of 4 workers) goes through
`_ingest_parallel` / `_process_single_file`, which never consults the store,
so re-ingesting an unchanged one-file directory reports `successful = 1`,
not `successful = 0`, on the second run. -/
theorem parallel_rerun_reports_success :
    (ingestParallel ((ingestParallel [] [["id1"]]).2) [["id1"]]).1.successful = 1 := by
  rfl

/-- Witness for C5 (amended) on a concrete one-file directory: the file is
stored on the first pass and the second sequential run reports no success. -/
theorem skip_existing_sequential_idempotent_witness :
    (["id1"] : List String) ≠ [] ∧
    filterExisting [] ["id1"] ≠ [] ∧
    ingestFile true [] ["id1"] =
      (.success (filterExisting [] ["id1"]).length, [] ++ filterExisting [] ["id1"]) ∧
    (ingestSequential true ((ingestSequential true [] [["id1"]]).2) [["id1"]]).1.successful = 0 ∧
    (ingestSequential true ((ingestSequential true [] [["id1"]]).2) [["id1"]]).2 =
      (ingestSequential true [] [["id1"]]).2 :=
  ⟨by decide, by decide,
    ((skip_existing_sequential_idempotent [] [["id1"]]).1 [] ["id1"] (by decide)).2.1
      (by decide),
    (skip_existing_sequential_idempotent [] [["id1"]]).2.1,
    (skip_existing_sequential_idempotent [] [["id1"]]).2.2.1⟩

lemma chunksOfSizeFuel_length_le {α : Type} (n : Nat) (hn : 0 < n) :
    ∀ (fuel : Nat) (l : List α), l.length ≤ fuel →
      ∀ p ∈ chunksOfSizeFuel n fuel l, p.length ≤ n := by
  intro fuel
  induction fuel with
  | zero =>
    intro l hlen p hp
    have : l = [] := List.eq_nil_of_length_eq_zero (by omega)
    subst this
    simp [chunksOfSizeFuel] at hp
  | succ fuel ih =>
    intro l hlen p hp
    simp only [chunksOfSizeFuel] at hp
    by_cases hemp : l.isEmpty
    · rw [if_pos hemp] at hp
      simp at hp
    · rw [if_neg hemp] at hp
      rw [if_neg (by omega : ¬n = 0)] at hp
      rcases List.mem_cons.mp hp with h | h
      · rw [h]
        exact List.length_take_le n l
      · have hlpos : 0 < l.length := by
          cases l with
          | nil => simp at hemp
          | cons a t => simp
        exact ih (l.drop n) (by rw [List.length_drop]; omega) p h

lemma chunksOfSize_length_le {α : Type} (n : Nat) (hn : 0 < n) :
    ∀ (l : List α), ∀ p ∈ chunksOfSize n l, p.length ≤ n :=
  fun l => chunksOfSizeFuel_length_le n hn l.length l (Nat.le_refl _)

lemma splitBySeps_length_le (cs : Nat) (hcs : 0 < cs) :
    ∀ (seps : List String) (s : String), ∀ p ∈ splitBySeps cs seps s, p.length ≤ cs := by
  intro seps
  induction seps with
  | nil =>
    intro s p hp
    simp only [splitBySeps] at hp
    split at hp
    · rename_i hle
      simp at hp
      rw [hp]
      exact hle
    · rcases List.mem_map.mp hp with ⟨q, hq, hqeq⟩
      have hb : q.length ≤ cs := chunksOfSize_length_le cs hcs s.data q hq
      rw [← hqeq]
      exact hb
  | cons sep rest ih =>
    intro s p hp
    simp only [splitBySeps] at hp
    split at hp
    · rename_i hle
      simp at hp
      rw [hp]
      exact hle
    · rcases List.mem_flatten.mp hp with ⟨ps, hps, hpin⟩
      rcases List.mem_map.mp hps with ⟨part, _, hpeq⟩
      rw [← hpeq] at hpin
      exact ih part p hpin

lemma tableChunk_map_eq (docs : List PyDoc) :
    (docs.map fun d => [d]).flatten = docs := by
  induction docs with
  | nil => rfl
  | cons d ds ih =>
    rw [List.map_cons, List.flatten_cons, List.singleton_append, ih]

lemma snd_mem_of_mem_enum {α : Type} {l : List α} {p : Nat × α} (hp : p ∈ l.enum) :
    p.2 ∈ l := by
  have hm := List.mem_map_of_mem Prod.snd hp
  rw [List.enum_eq_enumFrom, List.enumFrom_map_snd] at hm
  exact hm

lemma tableChunk_id (docs : List PyDoc) : tableChunkDocuments true docs = docs := by
  unfold tableChunkDocuments
  rw [if_neg (by simp)]
  have hfun : (fun d : PyDoc =>
      if metaGetBool d.metadata "has_tables" = true then chunkWithTables d else [d]) =
      fun d => [d] := by
    funext d
    simp [chunkWithTables]
  rw [hfun, tableChunk_map_eq]

/-- Claim C7 (amended): with a positive configured chunk size, a document
already at or below the size limit is returned unchanged, and EVERY chunk
the composed chunking stage emits — table-flagged documents included — has
content length at most the chunk size: the table chunker passes table
documents through intact, but the subsequent semantic chunking stage splits
any document over the limit, table-flagged or not (see the counterexample
for the claimed table bypass). -/
theorem chunk_size_bound (cs : Nat) (hcs : 0 < cs) (seps : List String)
    (docs : List PyDoc) :
    (∀ d ∈ docs, d.content.length ≤ cs → chunkDocument cs seps d = [d]) ∧
    ∀ c ∈ pipelineChunkDocuments cs seps docs, c.content.length ≤ cs := by
  constructor
  · intro d _ hle
    unfold chunkDocument
    rw [if_pos hle]
  · intro c hc
    unfold pipelineChunkDocuments at hc
    rw [tableChunk_id] at hc
    unfold semanticChunkDocuments at hc
    rcases List.mem_flatten.mp hc with ⟨cl, hcl, hcin⟩
    rcases List.mem_map.mp hcl with ⟨d, _, hdeq⟩
    rw [← hdeq] at hcin
    unfold chunkDocument at hcin
    by_cases hle : d.content.length ≤ cs
    · rw [if_pos hle] at hcin
      simp at hcin
      rw [hcin]
      exact hle
    · rw [if_neg hle] at hcin
      dsimp only at hcin
      rcases List.mem_map.mp hcin with ⟨p, hp, hpeq⟩
      rw [← hpeq]
      exact splitBySeps_length_le cs hcs seps d.content p.2 (snd_mem_of_mem_enum hp)

/-- Counterexample to C7 as stated: a table-flagged document longer than the
configured chunk size (here 5) is NOT kept intact as one chunk — the
semantic chunking stage runs over the table chunker's output without
checking `has_tables` and splits it (here into 3 chunks). -/
theorem table_doc_is_split :
    metaGetBool tableDocFixture.metadata "has_tables" = true ∧
    (pipelineChunkDocuments 5 defaultSeparators [tableDocFixture]).length = 3 := by
  constructor
  · rfl
  · rfl

/-- Witness for C7 (amended) at chunk size 5 on the table-flagged fixture. -/
theorem chunk_size_bound_witness :
    0 < 5 ∧
    ((∀ d ∈ [tableDocFixture], d.content.length ≤ 5 →
        chunkDocument 5 defaultSeparators d = [d]) ∧
      ∀ c ∈ pipelineChunkDocuments 5 defaultSeparators [tableDocFixture],
        c.content.length ≤ 5) :=
  ⟨by decide, chunk_size_bound 5 (by decide) defaultSeparators [tableDocFixture]⟩

/-- Counterexample to C8 as stated: a document already within the size limit
is returned unchanged by `chunk_document` — its metadata does NOT receive
`chunk_index` (nor `total_chunks`), contradicting the claim's "including a
document returned as a single chunk". -/
theorem small_doc_chunk_lacks_index :
    chunkDocument 800 defaultSeparators smallDocFixture = [smallDocFixture] ∧
    smallDocFixture.metadata.lookup "chunk_index" = none ∧
    smallDocFixture.metadata.lookup "total_chunks" = none := by
  exact ⟨rfl, rfl, rfl⟩

/-- Claim C8 (amended): every chunk produced by SPLITTING a document (one
whose content exceeds the chunk size) carries all of its parent's metadata
entries plus its zero-based `chunk_index`, the parent's `total_chunks` count
and its own `chunk_size`; a document already at or below the limit is
returned unchanged, without these keys (see the counterexample). -/
theorem split_chunks_extend_metadata (cs : Nat) (seps : List String) (d : PyDoc)
    (hbig : cs < d.content.length) :
    (chunkDocument cs seps d).length = (splitBySeps cs seps d.content).length ∧
    ∀ (i : Nat) (hi : i < (chunkDocument cs seps d).length),
      ((chunkDocument cs seps d).get ⟨i, hi⟩).metadata.lookup "chunk_index" =
        some (.i i) ∧
      ((chunkDocument cs seps d).get ⟨i, hi⟩).metadata.lookup "total_chunks" =
        some (.i ((splitBySeps cs seps d.content).length : Int)) ∧
      ((chunkDocument cs seps d).get ⟨i, hi⟩).metadata.lookup "chunk_size" =
        some (.i (((chunkDocument cs seps d).get ⟨i, hi⟩).content.length : Int)) ∧
      ∀ k : String, k ≠ "chunk_index" → k ≠ "total_chunks" → k ≠ "chunk_size" →
        ((chunkDocument cs seps d).get ⟨i, hi⟩).metadata.lookup k =
          d.metadata.lookup k := by
  have hne : ¬ d.content.length ≤ cs := by omega
  have heq : chunkDocument cs seps d =
      (splitBySeps cs seps d.content).enum.map fun p =>
        { content := p.2
          metadata := ("chunk_index", .i p.1) ::
            ("total_chunks", .i (splitBySeps cs seps d.content).length) ::
            ("chunk_size", .i p.2.length) :: d.metadata } := by
    unfold chunkDocument
    rw [if_neg hne]
  have hlen : (chunkDocument cs seps d).length = (splitBySeps cs seps d.content).length := by
    rw [heq, List.length_map, List.enum_eq_enumFrom, List.enumFrom_length]
  refine ⟨hlen, fun i hi => ?_⟩
  simp only [List.get_eq_getElem, heq, List.getElem_map, List.enum_eq_enumFrom,
    List.getElem_enumFrom, Nat.zero_add]
  refine ⟨?_, ?_, ?_, ?_⟩
  · simp [List.lookup]
  · simp [List.lookup]
  · simp [List.lookup]
  · intro k hk1 hk2 hk3
    have hb1 : (k == "chunk_index") = false := beq_eq_false_iff_ne.mpr hk1
    have hb2 : (k == "total_chunks") = false := beq_eq_false_iff_ne.mpr hk2
    have hb3 : (k == "chunk_size") = false := beq_eq_false_iff_ne.mpr hk3
    simp [List.lookup, hb1, hb2, hb3]

/-- Witness for C8 (amended) at chunk size 5 on a 12-character prose
document. -/
theorem split_chunks_extend_metadata_witness :
    5 < bigDocFixture.content.length ∧
    ((chunkDocument 5 defaultSeparators bigDocFixture).length =
        (splitBySeps 5 defaultSeparators bigDocFixture.content).length ∧
      ∀ (i : Nat) (hi : i < (chunkDocument 5 defaultSeparators bigDocFixture).length),
        ((chunkDocument 5 defaultSeparators bigDocFixture).get ⟨i, hi⟩).metadata.lookup
            "chunk_index" = some (.i i) ∧
        ((chunkDocument 5 defaultSeparators bigDocFixture).get ⟨i, hi⟩).metadata.lookup
            "total_chunks" =
          some (.i ((splitBySeps 5 defaultSeparators bigDocFixture.content).length : Int)) ∧
        ((chunkDocument 5 defaultSeparators bigDocFixture).get ⟨i, hi⟩).metadata.lookup
            "chunk_size" =
          some (.i (((chunkDocument 5 defaultSeparators bigDocFixture).get
              ⟨i, hi⟩).content.length : Int)) ∧
        ∀ k : String, k ≠ "chunk_index" → k ≠ "total_chunks" → k ≠ "chunk_size" →
          ((chunkDocument 5 defaultSeparators bigDocFixture).get ⟨i, hi⟩).metadata.lookup k =
            bigDocFixture.metadata.lookup k) :=
  ⟨by decide, split_chunks_extend_metadata 5 defaultSeparators bigDocFixture (by decide)⟩

lemma pyWordsAux_good :
    ∀ (l acc : List Char), (∀ c ∈ acc, pyIsSpace c = false) →
      ∀ w ∈ pyWordsAux l acc, w ≠ [] ∧ ∀ c ∈ w, pyIsSpace c = false := by
  intro l
  induction l with
  | nil =>
    intro acc hacc w hw
    simp only [pyWordsAux] at hw
    split at hw
    · simp at hw
    · rename_i hne
      simp at hw
      subst hw
      refine ⟨by simpa using fun h => hne (by simp [h, List.isEmpty_iff]), ?_⟩
      intro c hc
      exact hacc c (List.mem_reverse.mp hc)
  | cons a rest ih =>
    intro acc hacc w hw
    simp only [pyWordsAux] at hw
    split at hw
    · split at hw
      · exact ih [] (by simp) w hw
      · rename_i hne
        rcases List.mem_cons.mp hw with h | h
        · subst h
          refine ⟨by simpa using fun h => hne (by simp [h, List.isEmpty_iff]), ?_⟩
          intro c hc
          exact hacc c (List.mem_reverse.mp hc)
        · exact ih [] (by simp) w h
    · rename_i ha
      refine ih (a :: acc) ?_ w hw
      intro c hc
      rcases List.mem_cons.mp hc with h | h
      · subst h
        exact Bool.not_eq_true _ ▸ Bool.eq_false_iff.mpr ha
      · exact hacc c h

lemma pyWordsAux_chars :
    ∀ (l acc : List Char) (w : List Char), w ∈ pyWordsAux l acc →
      ∀ c ∈ w, c ∈ l ∨ c ∈ acc := by
  intro l
  induction l with
  | nil =>
    intro acc w hw c hc
    simp only [pyWordsAux] at hw
    split at hw
    · simp at hw
    · simp at hw
      subst hw
      right
      exact List.mem_reverse.mp hc
  | cons a rest ih =>
    intro acc w hw c hc
    simp only [pyWordsAux] at hw
    split at hw
    · split at hw
      · rcases ih [] w hw c hc with h | h
        · exact Or.inl (List.mem_cons_of_mem a h)
        · simp at h
      · rcases List.mem_cons.mp hw with h | h
        · subst h
          right
          exact List.mem_reverse.mp hc
        · rcases ih [] w h c hc with h2 | h2
          · exact Or.inl (List.mem_cons_of_mem a h2)
          · simp at h2
    · rcases ih (a :: acc) w hw c hc with h | h
      · exact Or.inl (List.mem_cons_of_mem a h)
      · rcases List.mem_cons.mp h with h2 | h2
        · rw [h2]
          exact Or.inl (List.mem_cons_self a rest)
        · exact Or.inr h2

lemma hasDoubleWS_cons_of_not_space {a : Char} (ha : pyIsSpace a = false) (t : List Char) :
    hasDoubleWS (a :: t) = hasDoubleWS t := by
  cases t with
  | nil => rfl
  | cons b t' => simp [hasDoubleWS, ha]

lemma hasDoubleWS_append_word {w : List Char}
    (hw : ∀ c ∈ w, pyIsSpace c = false) (r : List Char) :
    hasDoubleWS (w ++ r) = hasDoubleWS r := by
  induction w with
  | nil => simp
  | cons a w' ih =>
    rw [List.cons_append, hasDoubleWS_cons_of_not_space (hw a (List.mem_cons_self a w'))]
    exact ih fun c hc => hw c (List.mem_cons_of_mem a hc)

lemma joinWords_mem : ∀ (ws : List (List Char)) (c : Char), c ∈ joinWords ws →
    c = ' ' ∨ ∃ w ∈ ws, c ∈ w := by
  intro ws
  induction ws with
  | nil => intro c hc; simp [joinWords] at hc
  | cons w ws' ih =>
    intro c hc
    cases ws' with
    | nil =>
      right
      exact ⟨w, by simp, by simpa [joinWords] using hc⟩
    | cons w2 rest =>
      simp only [joinWords] at hc
      rcases List.mem_append.mp hc with h | h
      · exact Or.inr ⟨w, by simp, h⟩
      · rcases List.mem_cons.mp h with h2 | h2
        · exact Or.inl h2
        · rcases ih c h2 with h3 | ⟨w', hw', hcw⟩
          · exact Or.inl h3
          · exact Or.inr ⟨w', List.mem_cons_of_mem w hw', hcw⟩

lemma joinWords_ne_nil (ws : List (List Char)) (hne : ws ≠ [])
    (hws : ∀ w ∈ ws, w ≠ []) : joinWords ws ≠ [] := by
  match ws with
  | [w] => simpa [joinWords] using hws w (by simp)
  | w :: w2 :: rest =>
    simp only [joinWords]
    intro h
    rcases List.append_eq_nil.mp h with ⟨_, h2⟩
    simp at h2

lemma joinWords_head (ws : List (List Char))
    (hws : ∀ w ∈ ws, w ≠ [] ∧ ∀ c ∈ w, pyIsSpace c = false) :
    ∀ c, (joinWords ws).head? = some c → pyIsSpace c = false := by
  match ws with
  | [] => intro c hc; simp [joinWords] at hc
  | [w] =>
    intro c hc
    simp only [joinWords] at hc
    obtain ⟨hne, hgood⟩ := hws w (by simp)
    cases w with
    | nil => exact absurd rfl hne
    | cons a w' =>
      simp at hc
      exact hc ▸ hgood a (List.mem_cons_self a w')
  | w :: w2 :: rest =>
    intro c hc
    simp only [joinWords] at hc
    obtain ⟨hne, hgood⟩ := hws w (by simp)
    cases w with
    | nil => exact absurd rfl hne
    | cons a w' =>
      rw [List.cons_append] at hc
      simp at hc
      exact hc ▸ hgood a (List.mem_cons_self a w')

lemma joinWords_getLast : ∀ (ws : List (List Char)),
    (∀ w ∈ ws, w ≠ [] ∧ ∀ c ∈ w, pyIsSpace c = false) →
    ∀ c, (joinWords ws).getLast? = some c → pyIsSpace c = false := by
  intro ws
  induction ws with
  | nil => intro _ c hc; simp [joinWords] at hc
  | cons w ws' ih =>
    intro hws c hc
    cases ws' with
    | nil =>
      simp only [joinWords] at hc
      exact (hws w (by simp)).2 c (List.mem_of_getLast?_eq_some hc)
    | cons w2 rest =>
      have hgood' : ∀ v ∈ w2 :: rest, v ≠ [] ∧ ∀ x ∈ v, pyIsSpace x = false :=
        fun v hv => hws v (List.mem_cons_of_mem w hv)
      have hne2 : joinWords (w2 :: rest) ≠ [] :=
        joinWords_ne_nil (w2 :: rest) (by simp) fun v hv => (hgood' v hv).1
      simp only [joinWords] at hc
      rw [List.getLast?_append] at hc
      cases hj : joinWords (w2 :: rest) with
      | nil => exact absurd hj hne2
      | cons b t =>
        rw [hj, List.getLast?_cons_cons] at hc
        cases hgl : (b :: t).getLast? with
        | none => simp at hgl
        | some x =>
          rw [hgl] at hc
          simp [Option.or] at hc
          refine ih hgood' c ?_
          rw [hj, hgl, hc]

lemma joinWords_noDouble : ∀ (ws : List (List Char)),
    (∀ w ∈ ws, w ≠ [] ∧ ∀ c ∈ w, pyIsSpace c = false) →
    hasDoubleWS (joinWords ws) = false := by
  intro ws
  induction ws with
  | nil => intro _; rfl
  | cons w ws' ih =>
    intro hws
    cases ws' with
    | nil =>
      have h := hasDoubleWS_append_word (hws w (by simp)).2 []
      simpa [joinWords] using h
    | cons w2 rest =>
      simp only [joinWords]
      rw [hasDoubleWS_append_word (hws w (by simp)).2]
      have hgood' : ∀ v ∈ w2 :: rest, v ≠ [] ∧ ∀ x ∈ v, pyIsSpace x = false :=
        fun v hv => hws v (List.mem_cons_of_mem w hv)
      have hne2 : joinWords (w2 :: rest) ≠ [] :=
        joinWords_ne_nil (w2 :: rest) (by simp) fun v hv => (hgood' v hv).1
      have ihh := ih hgood'
      cases hj : joinWords (w2 :: rest) with
      | nil => exact absurd hj hne2
      | cons b t =>
        have hb : pyIsSpace b = false := joinWords_head (w2 :: rest) hgood' b (by rw [hj]; rfl)
        rw [hj] at ihh
        simp [hasDoubleWS, hb, ihh]

lemma dropWhile_eq_self_of_head (l : List Char)
    (h : ∀ c, l.head? = some c → pyIsSpace c = false) :
    l.dropWhile pyIsSpace = l := by
  cases l with
  | nil => rfl
  | cons a t =>
    rw [List.dropWhile_cons]
    simp [h a rfl]

lemma pyStrip_eq_self (l : List Char)
    (hh : ∀ c, l.head? = some c → pyIsSpace c = false)
    (hl : ∀ c, l.getLast? = some c → pyIsSpace c = false) :
    pyStrip l = l := by
  unfold pyStrip
  rw [dropWhile_eq_self_of_head l hh]
  have hrev : ∀ c, l.reverse.head? = some c → pyIsSpace c = false := by
    intro c hc
    rw [List.head?_reverse] at hc
    exact hl c hc
  rw [dropWhile_eq_self_of_head l.reverse hrev, List.reverse_reverse]

lemma mem_pyStrip {l : List Char} {c : Char} (hc : c ∈ pyStrip l) : c ∈ l := by
  unfold pyStrip at hc
  have h1 := List.mem_reverse.mp hc
  have h2 := (List.dropWhile_sublist pyIsSpace).subset h1
  have h3 := List.mem_reverse.mp h2
  exact (List.dropWhile_sublist pyIsSpace).subset h3

lemma removeNullChars_no_null (l : List Char) : Char.ofNat 0 ∉ removeNullChars l := by
  intro h
  have := List.mem_filter.mp h
  simp at this

lemma removeNullChars_id (l : List Char) (h : Char.ofNat 0 ∉ l) : removeNullChars l = l :=
  List.filter_eq_self.mpr fun a ha => by
    simp only [ne_eq, decide_eq_true_eq]
    exact fun heq => h (heq ▸ ha)

lemma cleanChars_no_null (l : List Char) : Char.ofNat 0 ∉ cleanChars l := by
  intro h
  unfold cleanChars at h
  exact removeNullChars_no_null _ (mem_pyStrip h)

lemma cleanChars_props (l : List Char) (hnull : Char.ofNat 0 ∉ l) :
    hasDoubleWS (cleanChars l) = false ∧
    (∀ c, (cleanChars l).head? = some c → pyIsSpace c = false) ∧
    (∀ c, (cleanChars l).getLast? = some c → pyIsSpace c = false) := by
  have hgood : ∀ w ∈ pyWords l, w ≠ [] ∧ ∀ c ∈ w, pyIsSpace c = false :=
    pyWordsAux_good l [] (by simp)
  have hjoin_nonull : Char.ofNat 0 ∉ joinWords (pyWords l) := by
    intro h
    rcases joinWords_mem _ _ h with h1 | ⟨w, hw, hcw⟩
    · exact absurd h1 (by decide)
    · rcases pyWordsAux_chars l [] w hw _ hcw with h2 | h2
      · exact hnull h2
      · simp at h2
  have hh := joinWords_head (pyWords l) hgood
  have hl := joinWords_getLast (pyWords l) hgood
  unfold cleanChars
  rw [removeNullChars_id _ hjoin_nonull, pyStrip_eq_self _ hh hl]
  exact ⟨joinWords_noDouble (pyWords l) hgood, hh, hl⟩

/-- Counterexample to C9 as stated: the unit the Excel/CSV loader emits for
a one-column, one-row dataframe contains a run of consecutive whitespace
(`"\n\n"` between its formatted lines and before the table body) — the
Excel loader never passes its content through `_clean_text`. -/
theorem excel_unit_has_whitespace_run :
    excelUnitDocs.map (fun d => hasDoubleWS d.content.data) = [true] := by
  rfl

/-- Claim C9 (amended): units whose content passes `_clean_text` (the PDF and
Word loader paths, here the pdfplumber page content) are normalized — when
the raw extracted text and table text contain no null bytes, the stored
content has no run of two or more consecutive whitespace characters and no
leading or trailing whitespace; moreover `_clean_text` output never contains
a null byte, for any input.  Excel/CSV units are NOT normalized (see the
counterexample), and `_clean_text` itself can leave a double space when a
null byte sits between two spaces, since nulls are removed only after
whitespace collapsing. -/
theorem clean_text_normalizes (text tableText : String)
    (ht : Char.ofNat 0 ∉ text.data) (htt : Char.ofNat 0 ∉ tableText.data) :
    hasDoubleWS (pdfPageContent text tableText).data = false ∧
    (∀ c, (pdfPageContent text tableText).data.head? = some c → pyIsSpace c = false) ∧
    (∀ c, (pdfPageContent text tableText).data.getLast? = some c → pyIsSpace c = false) ∧
    (∀ s : String, Char.ofNat 0 ∉ (cleanText s).data) ∧
    hasDoubleWS (cleanText " a \x00 b ").data = true := by
  have hcomb : Char.ofNat 0 ∉
      (if tableText = "" then text else text ++ "\n\n" ++ tableText).data := by
    split
    · exact ht
    · intro h
      simp only [String.data_append] at h
      rcases List.mem_append.mp h with h1 | h1
      · rcases List.mem_append.mp h1 with h2 | h2
        · exact ht h2
        · revert h2; decide
      · exact htt h1
  have hprops := cleanChars_props _ hcomb
  refine ⟨hprops.1, hprops.2.1, hprops.2.2, fun s => cleanChars_no_null s.data, by rfl⟩

/-- Witness for C9 (amended) on concrete raw page text with collapsible
whitespace and no tables. -/
theorem clean_text_normalizes_witness :
    (Char.ofNat 0 ∉ ("a  b\n\nc" : String).data ∧ Char.ofNat 0 ∉ ("" : String).data) ∧
    (hasDoubleWS (pdfPageContent "a  b\n\nc" "").data = false ∧
      (∀ c, (pdfPageContent "a  b\n\nc" "").data.head? = some c → pyIsSpace c = false) ∧
      (∀ c, (pdfPageContent "a  b\n\nc" "").data.getLast? = some c → pyIsSpace c = false) ∧
      (∀ s : String, Char.ofNat 0 ∉ (cleanText s).data) ∧
      hasDoubleWS (cleanText " a \x00 b ").data = true) :=
  ⟨⟨by decide, by decide⟩, clean_text_normalizes "a  b\n\nc" "" (by decide) (by decide)⟩

end CoOpAssist
